import Mathlib

/-!
# Verification of `simple-loading-cache` (`src/cache.go`)

A shallow embedding of the Go loading cache in Lean 4.

Modelling conventions:
* `time.Time` is a `Nat` (instants on a discrete clock); `time.Duration` is a
  `Nat` (the spec fixes the TTL as a non-negative duration).
  `t.Before(u)` is `t < u`, and `t.Add(d)` is `t + d`.
* Go maps `map[K]*CacheValue[V]` and `map[K]*sync.Mutex` are total functions
  `K → Option _`; a missing key maps to `none`.  For the lock registry only
  the existence of a key's lock matters to the sequential model, so it is
  `K → Bool`.
* Each sequential operation takes the current clock reading `now` as an
  explicit argument and returns, besides its result and the updated cache,
  the number of loader invocations it performed, so that "the loader is /
  is not invoked" is a provable proposition.
* Concurrency claims are settled against small-step interleaving semantics
  (`Conc` for `Get`, `Reg` for `getKeyLockFromMap`) defined further down.
-/

/-- Embedding of `CacheValue` from `src/cache.go`: a stored value together with its
expiration instant (`Value V`, `Expiration time.Time`). -/
structure CacheValue (V : Type) where
  Value : V
  Expiration : Nat
deriving DecidableEq, Repr

/-- Embedding of `Expired` from `src/cache.go`:
`return this.Expiration.Before(time.Now())`, i.e. the entry is expired
exactly when its expiration instant is strictly before the current time.
The current time is the explicit argument `now`. -/
def CacheValue.Expired {V : Type} (this : CacheValue V) (now : Nat) : Bool :=
  decide (this.Expiration < now)

/-- Embedding of `loadingCache` from `src/cache.go`: the value store `dataMap`, the lock
registry `lockMap` (modelled by which keys own a lock), the loader
`loadingFunc` and the fixed TTL `cacheDuration`.  The registry-guard mutex
`lockMapLock` has no sequential content; it reappears in the interleaving
model `Reg` below. -/
structure loadingCache (K V : Type) where
  dataMap : K → Option (CacheValue V)
  lockMap : K → Bool
  loadingFunc : K → V
  cacheDuration : Nat

/-- Embedding of `NewLoadingCache` from `src/cache.go`: empty value store, empty lock
registry, the given loader and TTL. -/
def NewLoadingCache {K V : Type} (loadingFunc : K → V) (cacheDuration : Nat) :
    loadingCache K V :=
  { dataMap := fun _ => none
    lockMap := fun _ => false
    loadingFunc := loadingFunc
    cacheDuration := cacheDuration }

/-- Embedding of `getKeyLockFromMap` from `src/cache.go`, sequential content: after the
call the key owns a lock in the registry (an existing lock is returned
unchanged, otherwise exactly one new lock is created and inserted).  The
race-freedom of this step is settled separately by the `Reg` interleaving
model. -/
def loadingCache.getKeyLockFromMap {K V : Type} [DecidableEq K]
    (this : loadingCache K V) (key : K) : loadingCache K V :=
  { this with lockMap := Function.update this.lockMap key true }

/-- Embedding of `Get` from `src/cache.go`, sequential content, at clock reading `now`.
Mirrors the source: obtain the per-key lock, read `dataMap[key]`; if the
entry is absent, or present but expired, call the loader, store the result
with expiration `now + cacheDuration` and return it; otherwise return the
stored value.  The last component counts loader invocations (0 or 1). -/
def loadingCache.Get {K V : Type} [DecidableEq K]
    (l : loadingCache K V) (key : K) (now : Nat) :
    V × loadingCache K V × Nat :=
  let c := l.getKeyLockFromMap key
  match c.dataMap key with
  | none =>
      let newValue := c.loadingFunc key
      (newValue,
        { c with dataMap :=
            (Function.update c.dataMap key
              (some ⟨newValue, now + c.cacheDuration⟩)) },
        1)
  | some value =>
      if value.Expired now then
        let newValue := c.loadingFunc key
        (newValue,
          { c with dataMap :=
              (Function.update c.dataMap key
                (some ⟨newValue, now + c.cacheDuration⟩)) },
          1)
      else
        (value.Value, c, 0)

/-- Embedding of `Put` from `src/cache.go`, sequential content, at clock reading `now`:
obtain and acquire the per-key lock, then unconditionally store
`{value, now + cacheDuration}`.  `Put` contains no loader call. -/
def loadingCache.Put {K V : Type} [DecidableEq K]
    (l : loadingCache K V) (key : K) (value : V) (now : Nat) :
    loadingCache K V :=
  let c := l.getKeyLockFromMap key
  { c with dataMap :=
      (Function.update c.dataMap key
        (some ⟨value, now + c.cacheDuration⟩)) }

/-- Modelled from the spec: the spec's expiration predicate, "a `CacheEntry`
is expired when the current time is at or after `expiresAt`".  Kept separate
from `CacheValue.Expired` (the code's strict comparison) so that the two can
be compared. -/
def specExpired {V : Type} (e : CacheValue V) (now : Nat) : Bool :=
  decide (e.Expiration ≤ now)

/-- Modelled from the spec: the spec's description of `Get` — "If absent, or
present but expired, invoke the loader with `key`, producing `newValue`.
Store `{ value: newValue, expiresAt: now + ttl }`, replacing any prior
entry.  Return `newValue`.  Else return the stored value unchanged."  The
expiration test used here is the code's `Expired` (the spec's boundary
convention is settled separately). -/
def getSpec {K V : Type} [DecidableEq K]
    (l : loadingCache K V) (key : K) (now : Nat) :
    V × loadingCache K V × Nat :=
  let c := l.getKeyLockFromMap key
  match c.dataMap key with
  | none =>
      (c.loadingFunc key,
        { c with dataMap :=
            (Function.update c.dataMap key
              (some ⟨c.loadingFunc key, now + c.cacheDuration⟩)) }, 1)
  | some e =>
      if e.Expired now then
        (c.loadingFunc key,
          { c with dataMap :=
              (Function.update c.dataMap key
                (some ⟨c.loadingFunc key, now + c.cacheDuration⟩)) }, 1)
      else (e.Value, c, 0)

/-- The loader-failure model of `Get`.  The Go loader type `func(K) V`
cannot return an error, so a loader failure is a panic; this variant makes
the failure explicit as `Except E V` and tracks, per key, whether the
per-key mutex is currently held (`lockHeld`).  `keyLock.Lock()` sets the
flag; the `defer keyLock.Unlock()` of the source is modelled by clearing
the flag on the state of whichever exit path the body took, including the
panic path.  The last component again counts loader invocations. -/
structure loadingCacheE (K V E : Type) where
  dataMap : K → Option (CacheValue V)
  lockMap : K → Bool
  lockHeld : K → Bool
  loadingFunc : K → Except E V
  cacheDuration : Nat

/-- Embedding of `Get` from `src/cache.go` in the loader-failure model: identical control
flow to `loadingCache.Get`, except that a loader failure aborts the body
before any write to `dataMap`, and the deferred unlock still runs. -/
def loadingCacheE.Get {K V E : Type} [DecidableEq K]
    (l : loadingCacheE K V E) (key : K) (now : Nat) :
    Except E V × loadingCacheE K V E × Nat :=
  let c : loadingCacheE K V E :=
    { l with lockMap := Function.update l.lockMap key true,
             lockHeld := Function.update l.lockHeld key true }
  let body : Except E V × loadingCacheE K V E × Nat :=
    match c.dataMap key with
    | none =>
        match c.loadingFunc key with
        | .error e => (.error e, c, 1)
        | .ok v =>
            (.ok v,
              { c with dataMap :=
                  (Function.update c.dataMap key
                    (some ⟨v, now + c.cacheDuration⟩)) }, 1)
    | some value =>
        if value.Expired now then
          match c.loadingFunc key with
          | .error e => (.error e, c, 1)
          | .ok v =>
              (.ok v,
                { c with dataMap :=
                    (Function.update c.dataMap key
                      (some ⟨v, now + c.cacheDuration⟩)) }, 1)
        else (.ok value.Value, c, 0)
  (body.1,
    { body.2.1 with lockHeld := Function.update body.2.1.lockHeld key false },
    body.2.2)

/-- C2: for every key, `Get` coincides with the spec-side description
`getSpec`; concretely, when the entry is absent or expired it invokes the
loader, stores `{newValue, now + ttl}` over any prior entry and returns
`newValue`, and otherwise it returns the stored value with no loader call
and no write. -/
theorem get_refines_spec {K V : Type} [DecidableEq K]
    (l : loadingCache K V) (key : K) (now : Nat) :
    l.Get key now = getSpec l key now ∧
    ((l.dataMap key = none ∨
        ∃ e, l.dataMap key = some e ∧ e.Expired now = true) →
      (l.Get key now).1 = l.loadingFunc key ∧
      (l.Get key now).2.1.dataMap key =
        some ⟨l.loadingFunc key, now + l.cacheDuration⟩ ∧
      (l.Get key now).2.2 = 1) ∧
    (∀ e, l.dataMap key = some e → e.Expired now = false →
      (l.Get key now).1 = e.Value ∧
      (l.Get key now).2.1.dataMap = l.dataMap ∧
      (l.Get key now).2.2 = 0) := by
  refine ⟨rfl, ?_, ?_⟩
  · rintro (hnone | ⟨e, he, hex⟩)
    · refine ⟨?_, ?_, ?_⟩ <;>
        simp [loadingCache.Get, loadingCache.getKeyLockFromMap, hnone,
          Function.update_same]
    · refine ⟨?_, ?_, ?_⟩ <;>
        simp [loadingCache.Get, loadingCache.getKeyLockFromMap, he, hex,
          Function.update_same]
  · intro e he hex
    refine ⟨?_, ?_, ?_⟩ <;>
      simp [loadingCache.Get, loadingCache.getKeyLockFromMap, he, hex]

/-- C2 witness: a cold `Get 5` on loader `n ↦ 2 * n`, TTL 100, at time 0
loads `10`, stores it expiring at `100`, and reports one loader call. -/
theorem get_refines_spec_witness :
    ((NewLoadingCache (fun n => 2 * n) 100).Get 5 0).1 = 10 ∧
    ((NewLoadingCache (fun n => 2 * n) 100).Get 5 0).2.1.dataMap 5 =
      some ⟨10, 100⟩ ∧
    ((NewLoadingCache (fun n => 2 * n) 100).Get 5 0).2.2 = 1 := by
  have h := (get_refines_spec (NewLoadingCache (fun n => 2 * n) 100) 5 0).2.1
    (Or.inl rfl)
  exact ⟨h.1, h.2.1, h.2.2⟩

/-- C3 counterexample: an entry whose `Expiration` equals the current time
is NOT expired according to the code, contradicting the claim that the
entry is expired exactly when the current time is at or after `expiresAt`. -/
theorem expired_boundary_counterexample :
    ¬ (((⟨0, 5⟩ : CacheValue Nat).Expired 5 = true) ↔ 5 ≥ 5) := by
  decide

/-- C3 (amended): an entry is expired exactly when the current time is
strictly after its `Expiration`; in particular an entry whose `Expiration`
equals the current time is NOT expired. -/
theorem expired_iff_strictly_after {V : Type} (e : CacheValue V) (now : Nat) :
    e.Expired now = true ↔ e.Expiration < now := by
  simp [CacheValue.Expired]

/-- C4: after a cold `Get` at time `t` loaded and stored a value, a second
`Get` at `t + d - ε` (`0 < ε ≤ d`) returns the cached value without
invoking the loader, and a `Get` at `t + d + ε2` (`ε2 > 0`) invokes the
loader again. -/
theorem ttl_correctness {K V : Type} [DecidableEq K]
    (l : loadingCache K V) (k : K) (t ε ε2 : Nat)
    (hcold : l.dataMap k = none) (hε : 0 < ε)
    (hεd : ε ≤ l.cacheDuration) (hε2 : 0 < ε2) :
    ((l.Get k t).2.1.Get k (t + l.cacheDuration - ε)).1 = (l.Get k t).1 ∧
    ((l.Get k t).2.1.Get k (t + l.cacheDuration - ε)).2.2 = 0 ∧
    ((l.Get k t).2.1.Get k (t + l.cacheDuration + ε2)).2.2 = 1 := by
  have hne : ¬ (t + l.cacheDuration < t + l.cacheDuration - ε) := by omega
  have hpos : t + l.cacheDuration < t + l.cacheDuration + ε2 := by omega
  refine ⟨?_, ?_, ?_⟩ <;>
    simp [loadingCache.Get, loadingCache.getKeyLockFromMap, hcold,
      CacheValue.Expired, Function.update_same, hne, hpos]

/-- C4 witness: loader `n ↦ 2 * n`, TTL 100, key 5, first `Get` at `t = 0`,
second at `99`, third at `101`. -/
theorem ttl_correctness_witness :
    let l := NewLoadingCache (fun n => 2 * n) 100
    ((l.Get 5 0).2.1.Get 5 (0 + l.cacheDuration - 1)).1 = (l.Get 5 0).1 ∧
    ((l.Get 5 0).2.1.Get 5 (0 + l.cacheDuration - 1)).2.2 = 0 ∧
    ((l.Get 5 0).2.1.Get 5 (0 + l.cacheDuration + 1)).2.2 = 1 :=
  ttl_correctness (NewLoadingCache (fun n => 2 * n) 100) 5 0 1 1
    rfl (by decide) (by decide) (by decide)

/-- Helper: `Get` either leaves the value store untouched or replaces the
entry at the requested key, and it never touches other keys. -/
theorem Get_dataMap_cases {K V : Type} [DecidableEq K]
    (l : loadingCache K V) (k : K) (now : Nat) :
    (l.Get k now).2.1.dataMap = l.dataMap ∨
    ∃ w, (l.Get k now).2.1.dataMap = Function.update l.dataMap k (some w) := by
  rcases hk : l.dataMap k with _ | e
  · exact Or.inr ⟨⟨l.loadingFunc k, now + l.cacheDuration⟩, by
      simp [loadingCache.Get, loadingCache.getKeyLockFromMap, hk]⟩
  · by_cases hx : e.Expired now = true
    · exact Or.inr ⟨⟨l.loadingFunc k, now + l.cacheDuration⟩, by
        simp [loadingCache.Get, loadingCache.getKeyLockFromMap, hk, hx]⟩
    · exact Or.inl (by
        simp [loadingCache.Get, loadingCache.getKeyLockFromMap, hk, hx])

/-- C6: `Put` unconditionally writes `{value, now + ttl}` at the key,
leaves every other key alone, its effect is independent of the loader
(it never invokes it), and an immediate `Get` after it returns the put
value with zero loader invocations, whatever the prior entry was. -/
theorem put_overrides_expiration {K V : Type} [DecidableEq K]
    (l : loadingCache K V) (k : K) (v : V) (now : Nat) :
    (l.Put k v now).dataMap k = some ⟨v, now + l.cacheDuration⟩ ∧
    (∀ k2, k2 ≠ k → (l.Put k v now).dataMap k2 = l.dataMap k2) ∧
    (∀ f2, ({ l with loadingFunc := f2 } : loadingCache K V).Put k v now
        = { l.Put k v now with loadingFunc := f2 }) ∧
    ((l.Put k v now).Get k now).1 = v ∧
    ((l.Put k v now).Get k now).2.2 = 0 := by
  have hlive : ¬ (now + l.cacheDuration < now) := by omega
  refine ⟨?_, ?_, ?_, ?_, ?_⟩ <;>
    simp [loadingCache.Put, loadingCache.Get, loadingCache.getKeyLockFromMap,
      CacheValue.Expired, Function.update_same, hlive]
  intro k2 hk2
  simp [Function.update_noteq hk2]

/-- C6 witness: `Put 5 999` then `Get 5` at the same instant returns `999`
without calling the loader, and key `7` is untouched. -/
theorem put_overrides_expiration_witness :
    ((((NewLoadingCache (fun n => 2 * n) 100).Put 5 999 0).Get 5 0).1 = 999 ∧
      (((NewLoadingCache (fun n => 2 * n) 100).Put 5 999 0).Get 5 0).2.2 = 0) ∧
    ((NewLoadingCache (fun n => 2 * n) 100).Put 5 999 0).dataMap 7 = none := by
  have h := put_overrides_expiration (NewLoadingCache (fun n => 2 * n) 100) 5 999 0
  exact ⟨⟨h.2.2.2.1, h.2.2.2.2⟩, (h.2.1 7 (by decide)).trans rfl⟩

/-- C7: with TTL zero, every entry written by `Get` or `Put` at time `t` is
expired at any strictly later access time `t2`, so the next `Get` invokes
the loader again; the value just loaded by a cold `Get` is still returned
to the caller that triggered that load. -/
theorem zero_ttl_next_access_reloads {K V : Type} [DecidableEq K]
    (l : loadingCache K V) (k : K) (v : V) (t t2 : Nat)
    (h0 : l.cacheDuration = 0) (ht : t < t2) :
    (((l.Put k v t).Get k t2).2.2 = 1) ∧
    (l.dataMap k = none →
      (l.Get k t).1 = l.loadingFunc k ∧
      (l.Get k t).2.1.dataMap k = some ⟨l.loadingFunc k, t⟩ ∧
      ((l.Get k t).2.1.Get k t2).2.2 = 1) := by
  constructor
  · simp [loadingCache.Put, loadingCache.Get, loadingCache.getKeyLockFromMap,
      CacheValue.Expired, Function.update_same, h0, ht]
  · intro hcold
    refine ⟨?_, ?_, ?_⟩ <;>
      simp [loadingCache.Get, loadingCache.getKeyLockFromMap,
        CacheValue.Expired, Function.update_same, h0, ht, hcold]

/-- C7 witness: TTL `0`, loader `n ↦ n + 1`, `Put 3 9` at `t = 0` then
`Get 3` at `t2 = 1` reloads; same for a cold `Get 3` at `0` followed by
`Get 3` at `1`. -/
theorem zero_ttl_next_access_reloads_witness :
    ((((NewLoadingCache (fun n => n + 1) 0).Put 3 9 0).Get 3 1).2.2 = 1) ∧
    (((NewLoadingCache (fun n => n + 1) 0).Get 3 0).1 = 4 ∧
      (((NewLoadingCache (fun n => n + 1) 0).Get 3 0).2.1.Get 3 1).2.2 = 1) := by
  have h := zero_ttl_next_access_reloads
    (NewLoadingCache (fun n => n + 1) 0) 3 9 0 1 rfl (by decide)
  exact ⟨h.1, (h.2 rfl).1, (h.2 rfl).2.2⟩

/-- C9: a `Get` that finds a live entry returns its value with no loader
invocation and no write at all: the resulting cache is exactly
`getKeyLockFromMap`'s, whose only effect is registering the per-key lock. -/
theorem fresh_get_frame {K V : Type} [DecidableEq K]
    (l : loadingCache K V) (k : K) (now : Nat) (e : CacheValue V)
    (he : l.dataMap k = some e) (hf : e.Expired now = false) :
    l.Get k now = (e.Value, l.getKeyLockFromMap k, 0) ∧
    (l.getKeyLockFromMap k).dataMap = l.dataMap ∧
    (l.getKeyLockFromMap k).loadingFunc = l.loadingFunc ∧
    (l.getKeyLockFromMap k).cacheDuration = l.cacheDuration ∧
    (∀ k2, k2 ≠ k → (l.getKeyLockFromMap k).lockMap k2 = l.lockMap k2) ∧
    (l.getKeyLockFromMap k).lockMap k = true := by
  refine ⟨?_, rfl, rfl, rfl, ?_, ?_⟩ <;>
    simp [loadingCache.Get, loadingCache.getKeyLockFromMap, he, hf,
      Function.update_same]
  intro k2 hk2
  simp [Function.update_noteq hk2]

/-- C9 witness: a cache holding `{5, expires 10}` under key `1`, read at
time `10` (boundary: not yet expired). -/
theorem fresh_get_frame_witness :
    ((NewLoadingCache (fun _ => 0) 10).Put 1 5 0).Get 1 10 =
      (5, ((NewLoadingCache (fun _ => 0) 10).Put 1 5 0).getKeyLockFromMap 1, 0) := by
  have h := fresh_get_frame ((NewLoadingCache (fun _ => 0) 10).Put 1 5 0) 1 10
    ⟨5, 10⟩ (by simp [loadingCache.Put, NewLoadingCache,
      loadingCache.getKeyLockFromMap]) (by decide)
  exact h.1

/-- C10: neither `Get` nor `Put` ever removes a value-store entry: a key
that is present stays present, and every key other than the operated-on key
keeps its exact entry (stale value and past expiration included). -/
theorem store_never_shrinks {K V : Type} [DecidableEq K]
    (l : loadingCache K V) (k k2 : K) (v : V) (now : Nat) :
    ((l.dataMap k2).isSome → ((l.Get k now).2.1.dataMap k2).isSome) ∧
    (k2 ≠ k → (l.Get k now).2.1.dataMap k2 = l.dataMap k2) ∧
    ((l.dataMap k2).isSome → ((l.Put k v now).dataMap k2).isSome) ∧
    (k2 ≠ k → (l.Put k v now).dataMap k2 = l.dataMap k2) := by
  have hget := Get_dataMap_cases l k now
  refine ⟨?_, ?_, ?_, ?_⟩
  · intro hs
    rcases hget with h | ⟨w, h⟩
    · simpa [h] using hs
    · rw [h, Function.update_apply]
      split <;> simp_all
  · intro hk2
    rcases hget with h | ⟨w, h⟩
    · simp [h]
    · rw [h, Function.update_noteq hk2]
  · intro hs
    simp only [loadingCache.Put, loadingCache.getKeyLockFromMap]
    rw [Function.update_apply]
    split <;> simp_all
  · intro hk2
    simp only [loadingCache.Put, loadingCache.getKeyLockFromMap]
    exact Function.update_noteq hk2 _ _

/-- C5: when a `Get`-triggered load fails, the failure propagates unwrapped
to that `Get`, the per-key lock is released anyway, the value store is left
completely unchanged, and any subsequent `Get` for the key (at the same or
a later time) invokes the loader again. -/
theorem loader_failure_non_poisoning {K V E : Type} [DecidableEq K]
    (l : loadingCacheE K V E) (k : K) (now now2 : Nat) (e : E)
    (herr : l.loadingFunc k = .error e)
    (htrig : l.dataMap k = none ∨
      ∃ cv, l.dataMap k = some cv ∧ cv.Expired now = true)
    (hlater : now ≤ now2) :
    (l.Get k now).1 = .error e ∧
    (l.Get k now).2.1.dataMap = l.dataMap ∧
    (l.Get k now).2.1.lockHeld k = false ∧
    (l.Get k now).2.2 = 1 ∧
    ((l.Get k now).2.1.Get k now2).2.2 = 1 := by
  rcases htrig with hnone | ⟨cv, hcv, hexp⟩
  · refine ⟨?_, ?_, ?_, ?_, ?_⟩ <;>
      simp [loadingCacheE.Get, hnone, herr, Function.update_same]
  · have hexp2 : cv.Expired now2 = true := by
      simp [CacheValue.Expired] at hexp ⊢
      omega
    refine ⟨?_, ?_, ?_, ?_, ?_⟩ <;>
      simp [loadingCacheE.Get, hcv, hexp, hexp2, herr, Function.update_same]

/-- C5 witness: a cold cache whose loader always fails with error `42`;
`Get 5` at time `0` surfaces the error, releases the lock, writes nothing,
and a repeated `Get 5` calls the loader again. -/
theorem loader_failure_non_poisoning_witness :
    ((loadingCacheE.mk (fun _ => none) (fun _ => false) (fun _ => false)
        (fun _ => Except.error 42) 100 : loadingCacheE Nat Nat Nat).Get 5 0).1
        = Except.error 42 ∧
    ((loadingCacheE.mk (fun _ => none) (fun _ => false) (fun _ => false)
        (fun _ => Except.error 42) 100 : loadingCacheE Nat Nat Nat).Get 5 0).2.1.lockHeld 5
        = false ∧
    (((loadingCacheE.mk (fun _ => none) (fun _ => false) (fun _ => false)
        (fun _ => Except.error 42) 100 : loadingCacheE Nat Nat Nat).Get 5 0).2.1.Get 5 0).2.2
        = 1 := by
  have h := loader_failure_non_poisoning
    (loadingCacheE.mk (fun _ => none) (fun _ => false) (fun _ => false)
      (fun _ => Except.error 42) 100 : loadingCacheE Nat Nat Nat)
    5 0 0 42 rfl (Or.inl rfl) (le_refl 0)
  exact ⟨h.1, h.2.2.1, h.2.2.2.2⟩

namespace Conc

/-- Program counter of one `Get` caller for a fixed key in the interleaving
model of `src/cache.go`: `idle` before `keyLock.Lock()`; `locked` after
acquiring the key's mutex and before reading `dataMap[key]`; `loading`
after the read found the entry absent or expired, before `loadingFunc`
returns; `loaded v` holding the loader's result before the map write;
`stored v` after the map write; `retrieved v` after the read found a live
entry with value `v`; `done v` after returning `v` (the deferred unlock has
run). -/
inductive PC (V : Type) where
  | idle
  | locked
  | loading
  | loaded (v : V)
  | retrieved (v : V)
  | stored (v : V)
  | done (v : V)

/-- A caller is between `keyLock.Lock()` and `keyLock.Unlock()`. -/
def PC.active {V : Type} : PC V → Prop
  | .idle => False
  | .done _ => False
  | _ => True

/-- Shared state of `n` concurrent `Get` callers on one key: the key's
mutex (`lock`, holding the identity of its owner), the key's `dataMap`
entry (`data`), the number of loader invocations so far (`calls`), and
each caller's program counter. -/
structure State (V : Type) (n : Nat) where
  lock : Option (Fin n)
  data : Option (CacheValue V)
  calls : Nat
  pcs : Fin n → PC V

/-- Initial state: mutex free, `dataMap` entry `d0`, no loader call yet,
every caller about to enter `Get`. -/
def init {V : Type} (n : Nat) (d0 : Option (CacheValue V)) : State V n :=
  ⟨none, d0, 0, fun _ => .idle⟩

/-- One interleaving step of `n` concurrent `Get key` callers, at a fixed
clock reading `now`, with loader result `lv = loadingFunc key` and TTL
`ttl`.  Each constructor is one atomic action of the source `Get`:
acquiring the free mutex, reading `dataMap[key]` (miss / expired / live),
the loader call, the `dataMap[key]` write, and returning (which runs the
deferred unlock). -/
inductive Step {V : Type} {n : Nat} (lv : V) (now ttl : Nat) :
    State V n → State V n → Prop where
  | acquire (s : State V n) (i : Fin n) :
      s.pcs i = .idle → s.lock = none →
      Step lv now ttl s
        { s with lock := some i, pcs := Function.update s.pcs i .locked }
  | checkMiss (s : State V n) (i : Fin n) :
      s.pcs i = .locked → s.data = none →
      Step lv now ttl s { s with pcs := Function.update s.pcs i .loading }
  | checkExpired (s : State V n) (i : Fin n) (cv : CacheValue V) :
      s.pcs i = .locked → s.data = some cv → cv.Expired now = true →
      Step lv now ttl s { s with pcs := Function.update s.pcs i .loading }
  | checkHit (s : State V n) (i : Fin n) (cv : CacheValue V) :
      s.pcs i = .locked → s.data = some cv → cv.Expired now = false →
      Step lv now ttl s
        { s with pcs := Function.update s.pcs i (.retrieved cv.Value) }
  | load (s : State V n) (i : Fin n) :
      s.pcs i = .loading →
      Step lv now ttl s
        { s with calls := s.calls + 1,
                 pcs := Function.update s.pcs i (.loaded lv) }
  | store (s : State V n) (i : Fin n) (v : V) :
      s.pcs i = .loaded v →
      Step lv now ttl s
        { s with data := some ⟨v, now + ttl⟩,
                 pcs := Function.update s.pcs i (.stored v) }
  | finishStored (s : State V n) (i : Fin n) (v : V) :
      s.pcs i = .stored v →
      Step lv now ttl s
        { s with lock := none, pcs := Function.update s.pcs i (.done v) }
  | finishRetrieved (s : State V n) (i : Fin n) (v : V) :
      s.pcs i = .retrieved v →
      Step lv now ttl s
        { s with lock := none, pcs := Function.update s.pcs i (.done v) }

/-- Some caller holds the loader's result but has not stored it yet. -/
def loadPending {V : Type} {n : Nat} (s : State V n) : Prop :=
  ∃ i v, s.pcs i = PC.loaded v

/-- The key's entry is the freshly loaded-and-stored one. -/
def freshData (lv : V) (now ttl : Nat) {n : Nat} (s : State V n) : Prop :=
  s.data = some ⟨lv, now + ttl⟩

/-- Inductive invariant of the interleaving model: mutex ownership, the
possible `dataMap` entries, the values carried by the program counters, and
the loader-invocation count. -/
structure Inv (lv : V) (now ttl : Nat) {n : Nat} (s : State V n) : Prop where
  owner : ∀ i, (s.pcs i).active → s.lock = some i
  data_cases : ∀ cv, s.data = some cv →
    cv.Expired now = true ∨ cv = ⟨lv, now + ttl⟩
  carried_val : ∀ i v,
    s.pcs i = .loaded v ∨ s.pcs i = .stored v ∨ s.pcs i = .done v ∨
      s.pcs i = .retrieved v → v = lv
  loading_cold : ∀ i, s.pcs i = .loading → ¬ freshData lv now ttl s
  after_fresh : ∀ i v,
    s.pcs i = .retrieved v ∨ s.pcs i = .stored v ∨ s.pcs i = .done v →
    freshData lv now ttl s
  calls_zero : ¬ freshData lv now ttl s → ¬ loadPending s → s.calls = 0
  calls_one : freshData lv now ttl s ∨ loadPending s → s.calls = 1

/-- The invariant holds initially when the key starts cold or expired. -/
theorem inv_init {V : Type} (lv : V) (now ttl : Nat) (n : Nat)
    (d0 : Option (CacheValue V))
    (hd0 : d0 = none ∨ ∃ cv, d0 = some cv ∧ cv.Expired now = true) :
    Inv lv now ttl (init n d0) := by
  have hfrz : (⟨lv, now + ttl⟩ : CacheValue V).Expired now = false := by
    simp [CacheValue.Expired]
  refine ⟨?_, ?_, ?_, ?_, ?_, ?_, ?_⟩
  · intro i hi
    simp [init, PC.active] at hi
  · intro cv hcv
    rcases hd0 with h | ⟨cv0, hcv0, hex⟩
    · simp [init, h] at hcv
    · simp [init, hcv0] at hcv
      exact Or.inl (hcv ▸ hex)
  · intro i v hv
    rcases hv with h | h | h | h <;> simp [init] at h
  · intro i h
    simp [init] at h
  · intro i v hv
    rcases hv with h | h | h <;> simp [init] at h
  · intro _ _
    rfl
  · intro h
    rcases h with h | ⟨i, v, hi⟩
    · rcases hd0 with h0 | ⟨cv0, hcv0, hex⟩
      · simp [freshData, init, h0] at h
      · simp [freshData, init, hcv0] at h
        rw [h] at hex
        rw [hfrz] at hex
        cases hex
    · simp [init] at hi

/-- Every step preserves the invariant. -/
theorem inv_step {V : Type} {n : Nat} {lv : V} {now ttl : Nat}
    {s t : State V n} (hinv : Inv lv now ttl s)
    (hstep : Step lv now ttl s t) : Inv lv now ttl t := by
  cases hstep with
  | acquire i hpc hlock =>
      refine ⟨?_, ?_, ?_, ?_, ?_, ?_, ?_⟩
      · intro j hj
        dsimp only at hj ⊢
        rcases eq_or_ne j i with rfl | hne
        · rfl
        · rw [Function.update_noteq hne] at hj
          have h2 := hinv.owner j hj
          rw [hlock] at h2
          exact Option.noConfusion h2
      · intro cv hcv
        dsimp only at hcv
        exact hinv.data_cases cv hcv
      · intro j v hv
        dsimp only at hv
        rcases eq_or_ne j i with rfl | hne
        · rw [Function.update_same] at hv
          rcases hv with h | h | h | h <;> cases h
        · rw [Function.update_noteq hne] at hv
          exact hinv.carried_val j v hv
      · intro j hj
        dsimp only at hj
        rcases eq_or_ne j i with rfl | hne
        · rw [Function.update_same] at hj
          cases hj
        · rw [Function.update_noteq hne] at hj
          exact hinv.loading_cold j hj
      · intro j v hv
        dsimp only at hv
        rcases eq_or_ne j i with rfl | hne
        · rw [Function.update_same] at hv
          rcases hv with h | h | h <;> cases h
        · rw [Function.update_noteq hne] at hv
          exact hinv.after_fresh j v hv
      · intro hnf hnp
        refine hinv.calls_zero hnf ?_
        rintro ⟨j, v, hj⟩
        rcases eq_or_ne j i with rfl | hne
        · rw [hpc] at hj
          cases hj
        · exact hnp ⟨j, v, by
            dsimp only
            rw [Function.update_noteq hne]
            exact hj⟩
      · intro h
        refine hinv.calls_one ?_
        rcases h with h | ⟨j, v, hj⟩
        · exact Or.inl h
        · dsimp only at hj
          rcases eq_or_ne j i with rfl | hne
          · rw [Function.update_same] at hj
            cases hj
          · rw [Function.update_noteq hne] at hj
            exact Or.inr ⟨j, v, hj⟩
  | checkMiss i hpc hdata =>
      refine ⟨?_, ?_, ?_, ?_, ?_, ?_, ?_⟩
      · intro j hj
        dsimp only at hj ⊢
        rcases eq_or_ne j i with rfl | hne
        · exact hinv.owner j (by rw [hpc]; trivial)
        · rw [Function.update_noteq hne] at hj
          exact hinv.owner j hj
      · intro cv hcv
        dsimp only at hcv
        exact hinv.data_cases cv hcv
      · intro j v hv
        dsimp only at hv
        rcases eq_or_ne j i with rfl | hne
        · rw [Function.update_same] at hv
          rcases hv with h | h | h | h <;> cases h
        · rw [Function.update_noteq hne] at hv
          exact hinv.carried_val j v hv
      · intro j hj hf
        have h2 : s.data = some ⟨lv, now + ttl⟩ := hf
        rw [hdata] at h2
        cases h2
      · intro j v hv
        dsimp only at hv
        rcases eq_or_ne j i with rfl | hne
        · rw [Function.update_same] at hv
          rcases hv with h | h | h <;> cases h
        · rw [Function.update_noteq hne] at hv
          exact hinv.after_fresh j v hv
      · intro hnf hnp
        refine hinv.calls_zero hnf ?_
        rintro ⟨j, v, hj⟩
        rcases eq_or_ne j i with rfl | hne
        · rw [hpc] at hj
          cases hj
        · exact hnp ⟨j, v, by
            dsimp only
            rw [Function.update_noteq hne]
            exact hj⟩
      · intro h
        refine hinv.calls_one ?_
        rcases h with h | ⟨j, v, hj⟩
        · exact Or.inl h
        · dsimp only at hj
          rcases eq_or_ne j i with rfl | hne
          · rw [Function.update_same] at hj
            cases hj
          · rw [Function.update_noteq hne] at hj
            exact Or.inr ⟨j, v, hj⟩
  | checkExpired i cv hpc hdata hex =>
      refine ⟨?_, ?_, ?_, ?_, ?_, ?_, ?_⟩
      · intro j hj
        dsimp only at hj ⊢
        rcases eq_or_ne j i with rfl | hne
        · exact hinv.owner j (by rw [hpc]; trivial)
        · rw [Function.update_noteq hne] at hj
          exact hinv.owner j hj
      · intro cv2 hcv
        dsimp only at hcv
        exact hinv.data_cases cv2 hcv
      · intro j v hv
        dsimp only at hv
        rcases eq_or_ne j i with rfl | hne
        · rw [Function.update_same] at hv
          rcases hv with h | h | h | h <;> cases h
        · rw [Function.update_noteq hne] at hv
          exact hinv.carried_val j v hv
      · intro j hj hf
        have h2 : s.data = some ⟨lv, now + ttl⟩ := hf
        rw [hdata] at h2
        injection h2 with h3
        rw [h3] at hex
        simp [CacheValue.Expired] at hex
      · intro j v hv
        dsimp only at hv
        rcases eq_or_ne j i with rfl | hne
        · rw [Function.update_same] at hv
          rcases hv with h | h | h <;> cases h
        · rw [Function.update_noteq hne] at hv
          exact hinv.after_fresh j v hv
      · intro hnf hnp
        refine hinv.calls_zero hnf ?_
        rintro ⟨j, v, hj⟩
        rcases eq_or_ne j i with rfl | hne
        · rw [hpc] at hj
          cases hj
        · exact hnp ⟨j, v, by
            dsimp only
            rw [Function.update_noteq hne]
            exact hj⟩
      · intro h
        refine hinv.calls_one ?_
        rcases h with h | ⟨j, v, hj⟩
        · exact Or.inl h
        · dsimp only at hj
          rcases eq_or_ne j i with rfl | hne
          · rw [Function.update_same] at hj
            cases hj
          · rw [Function.update_noteq hne] at hj
            exact Or.inr ⟨j, v, hj⟩
  | checkHit i cv hpc hdata hex =>
      have hcv : cv = ⟨lv, now + ttl⟩ := by
        rcases hinv.data_cases cv hdata with h | h
        · rw [h] at hex
          cases hex
        · exact h
      refine ⟨?_, ?_, ?_, ?_, ?_, ?_, ?_⟩
      · intro j hj
        dsimp only at hj ⊢
        rcases eq_or_ne j i with rfl | hne
        · exact hinv.owner j (by rw [hpc]; trivial)
        · rw [Function.update_noteq hne] at hj
          exact hinv.owner j hj
      · intro cv2 hcv2
        dsimp only at hcv2
        exact hinv.data_cases cv2 hcv2
      · intro j v hv
        dsimp only at hv
        rcases eq_or_ne j i with rfl | hne
        · rw [Function.update_same] at hv
          rcases hv with h | h | h | h
          · cases h
          · cases h
          · cases h
          · injection h with h4
            rw [hcv] at h4
            exact h4.symm
        · rw [Function.update_noteq hne] at hv
          exact hinv.carried_val j v hv
      · intro j hj
        dsimp only at hj
        rcases eq_or_ne j i with rfl | hne
        · rw [Function.update_same] at hj
          cases hj
        · rw [Function.update_noteq hne] at hj
          exact hinv.loading_cold j hj
      · intro j v hv
        dsimp only at hv
        rcases eq_or_ne j i with rfl | hne
        · show s.data = some ⟨lv, now + ttl⟩
          rw [hdata, hcv]
        · rw [Function.update_noteq hne] at hv
          exact hinv.after_fresh j v hv
      · intro hnf hnp
        refine hinv.calls_zero hnf ?_
        rintro ⟨j, v, hj⟩
        rcases eq_or_ne j i with rfl | hne
        · rw [hpc] at hj
          cases hj
        · exact hnp ⟨j, v, by
            dsimp only
            rw [Function.update_noteq hne]
            exact hj⟩
      · intro h
        refine hinv.calls_one ?_
        rcases h with h | ⟨j, v, hj⟩
        · exact Or.inl h
        · dsimp only at hj
          rcases eq_or_ne j i with rfl | hne
          · rw [Function.update_same] at hj
            cases hj
          · rw [Function.update_noteq hne] at hj
            exact Or.inr ⟨j, v, hj⟩
  | load i hpc =>
      refine ⟨?_, ?_, ?_, ?_, ?_, ?_, ?_⟩
      · intro j hj
        dsimp only at hj ⊢
        rcases eq_or_ne j i with rfl | hne
        · exact hinv.owner j (by rw [hpc]; trivial)
        · rw [Function.update_noteq hne] at hj
          exact hinv.owner j hj
      · intro cv hcv
        dsimp only at hcv
        exact hinv.data_cases cv hcv
      · intro j v hv
        dsimp only at hv
        rcases eq_or_ne j i with rfl | hne
        · rw [Function.update_same] at hv
          rcases hv with h | h | h | h
          · injection h with h4
            exact h4.symm
          · cases h
          · cases h
          · cases h
        · rw [Function.update_noteq hne] at hv
          exact hinv.carried_val j v hv
      · intro j hj
        dsimp only at hj
        rcases eq_or_ne j i with rfl | hne
        · rw [Function.update_same] at hj
          cases hj
        · rw [Function.update_noteq hne] at hj
          exact hinv.loading_cold j hj
      · intro j v hv
        dsimp only at hv
        rcases eq_or_ne j i with rfl | hne
        · rw [Function.update_same] at hv
          rcases hv with h | h | h <;> cases h
        · rw [Function.update_noteq hne] at hv
          exact hinv.after_fresh j v hv
      · intro _ hnp
        exact absurd ⟨i, lv, by
          dsimp only
          simp⟩ hnp
      · intro _
        have hnlp : ¬ loadPending s := by
          rintro ⟨j, v, hj⟩
          have h1 := hinv.owner j (by rw [hj]; trivial)
          have h2 := hinv.owner i (by rw [hpc]; trivial)
          rw [h1] at h2
          injection h2 with h3
          rw [h3] at hj
          rw [hpc] at hj
          cases hj
        have hc0 := hinv.calls_zero (hinv.loading_cold i hpc) hnlp
        dsimp only
        omega
  | store i v hpc =>
      have hv_lv : v = lv := hinv.carried_val i v (Or.inl hpc)
      subst hv_lv
      refine ⟨?_, ?_, ?_, ?_, ?_, ?_, ?_⟩
      · intro j hj
        dsimp only at hj ⊢
        rcases eq_or_ne j i with rfl | hne
        · exact hinv.owner j (by rw [hpc]; trivial)
        · rw [Function.update_noteq hne] at hj
          exact hinv.owner j hj
      · intro cv hcv
        dsimp only at hcv
        injection hcv with h2
        exact Or.inr h2.symm
      · intro j v2 hv
        dsimp only at hv
        rcases eq_or_ne j i with rfl | hne
        · rw [Function.update_same] at hv
          rcases hv with h | h | h | h
          · cases h
          · injection h with h4
            exact h4.symm
          · cases h
          · cases h
        · rw [Function.update_noteq hne] at hv
          exact hinv.carried_val j v2 hv
      · intro j hj
        dsimp only at hj
        rcases eq_or_ne j i with rfl | hne
        · rw [Function.update_same] at hj
          cases hj
        · rw [Function.update_noteq hne] at hj
          have h1 := hinv.owner j (by rw [hj]; trivial)
          have h2 := hinv.owner i (by rw [hpc]; trivial)
          rw [h1] at h2
          injection h2 with h3
          exact absurd h3 hne
      · intro j v2 hv
        exact rfl
      · intro hnf _
        exact (hnf rfl).elim
      · intro _
        dsimp only
        exact hinv.calls_one (Or.inr ⟨i, v, hpc⟩)
  | finishStored i v hpc =>
      refine ⟨?_, ?_, ?_, ?_, ?_, ?_, ?_⟩
      · intro j hj
        dsimp only at hj ⊢
        rcases eq_or_ne j i with rfl | hne
        · rw [Function.update_same] at hj
          cases hj
        · rw [Function.update_noteq hne] at hj
          have h1 := hinv.owner j hj
          have h2 := hinv.owner i (by rw [hpc]; trivial)
          rw [h1] at h2
          injection h2 with h3
          exact absurd h3 hne
      · intro cv hcv
        dsimp only at hcv
        exact hinv.data_cases cv hcv
      · intro j v2 hv
        dsimp only at hv
        rcases eq_or_ne j i with rfl | hne
        · rw [Function.update_same] at hv
          rcases hv with h | h | h | h
          · cases h
          · cases h
          · injection h with h4
            rw [← h4]
            exact hinv.carried_val j v (Or.inr (Or.inl hpc))
          · cases h
        · rw [Function.update_noteq hne] at hv
          exact hinv.carried_val j v2 hv
      · intro j hj
        dsimp only at hj
        rcases eq_or_ne j i with rfl | hne
        · rw [Function.update_same] at hj
          cases hj
        · rw [Function.update_noteq hne] at hj
          exact hinv.loading_cold j hj
      · intro j v2 hv
        exact hinv.after_fresh i v (Or.inr (Or.inl hpc))
      · intro hnf _
        exact absurd (hinv.after_fresh i v (Or.inr (Or.inl hpc))) hnf
      · intro _
        exact hinv.calls_one (Or.inl (hinv.after_fresh i v (Or.inr (Or.inl hpc))))
  | finishRetrieved i v hpc =>
      refine ⟨?_, ?_, ?_, ?_, ?_, ?_, ?_⟩
      · intro j hj
        dsimp only at hj ⊢
        rcases eq_or_ne j i with rfl | hne
        · rw [Function.update_same] at hj
          cases hj
        · rw [Function.update_noteq hne] at hj
          have h1 := hinv.owner j hj
          have h2 := hinv.owner i (by rw [hpc]; trivial)
          rw [h1] at h2
          injection h2 with h3
          exact absurd h3 hne
      · intro cv hcv
        dsimp only at hcv
        exact hinv.data_cases cv hcv
      · intro j v2 hv
        dsimp only at hv
        rcases eq_or_ne j i with rfl | hne
        · rw [Function.update_same] at hv
          rcases hv with h | h | h | h
          · cases h
          · cases h
          · injection h with h4
            rw [← h4]
            exact hinv.carried_val j v (Or.inr (Or.inr (Or.inr hpc)))
          · cases h
        · rw [Function.update_noteq hne] at hv
          exact hinv.carried_val j v2 hv
      · intro j hj
        dsimp only at hj
        rcases eq_or_ne j i with rfl | hne
        · rw [Function.update_same] at hj
          cases hj
        · rw [Function.update_noteq hne] at hj
          exact hinv.loading_cold j hj
      · intro j v2 hv
        exact hinv.after_fresh i v (Or.inl hpc)
      · intro hnf _
        exact absurd (hinv.after_fresh i v (Or.inl hpc)) hnf
      · intro _
        exact hinv.calls_one (Or.inl (hinv.after_fresh i v (Or.inl hpc)))

/-- Every reachable state satisfies the invariant. -/
theorem inv_reach {V : Type} {n : Nat} (lv : V) (now ttl : Nat)
    (d0 : Option (CacheValue V))
    (hd0 : d0 = none ∨ ∃ cv, d0 = some cv ∧ cv.Expired now = true)
    (s : State V n)
    (hreach : Relation.ReflTransGen (Step lv now ttl) (init n d0) s) :
    Inv lv now ttl s := by
  induction hreach with
  | refl => exact inv_init lv now ttl n d0 hd0
  | tail _ hstep ih => exact inv_step ih hstep

end Conc

/-- C1: in any interleaving of concurrent `Get` callers spanning a cold or
expired state of the key, when all callers have returned, the loader was
invoked exactly once and every caller returned the loader's single result
`lv`: the losers of the race blocked on the per-key lock and then read the
freshly cached entry without calling the loader again. -/
theorem conc_get_exactly_one_load {V : Type} {n : Nat} (lv : V)
    (now ttl : Nat) (d0 : Option (CacheValue V))
    (hd0 : d0 = none ∨ ∃ cv, d0 = some cv ∧ cv.Expired now = true)
    (s : Conc.State V n)
    (hreach : Relation.ReflTransGen (Conc.Step lv now ttl) (Conc.init n d0) s)
    (i0 : Fin n) (hdone : ∀ i, ∃ v, s.pcs i = Conc.PC.done v) :
    s.calls = 1 ∧ ∀ i v, s.pcs i = Conc.PC.done v → v = lv := by
  have hinv : Conc.Inv lv now ttl s :=
    Conc.inv_reach lv now ttl d0 hd0 s hreach
  obtain ⟨v0, hv0⟩ := hdone i0
  refine ⟨hinv.calls_one (Or.inl (hinv.after_fresh i0 v0 (Or.inr (Or.inr hv0)))), ?_⟩
  intro i v hv
  exact hinv.carried_val i v (Or.inr (Or.inr (Or.inl hv)))

namespace Conc

/-- Concrete two-caller run on a cold key (loader value 7, TTL 10, time 0):
caller 0 acquires, misses, loads, stores and returns; caller 1 then
acquires, hits the fresh entry and returns it. -/
def w0 : State Nat 2 := init 2 none

def w1 : State Nat 2 :=
  { w0 with lock := some 0, pcs := Function.update w0.pcs 0 .locked }

def w2 : State Nat 2 := { w1 with pcs := Function.update w1.pcs 0 .loading }

def w3 : State Nat 2 :=
  { w2 with calls := w2.calls + 1, pcs := Function.update w2.pcs 0 (.loaded 7) }

def w4 : State Nat 2 :=
  { w3 with data := some ⟨7, 0 + 10⟩, pcs := Function.update w3.pcs 0 (.stored 7) }

def w5 : State Nat 2 :=
  { w4 with lock := none, pcs := Function.update w4.pcs 0 (.done 7) }

def w6 : State Nat 2 :=
  { w5 with lock := some 1, pcs := Function.update w5.pcs 1 .locked }

def w7 : State Nat 2 :=
  { w6 with pcs := Function.update w6.pcs 1 (.retrieved (7 : Nat)) }

def w8 : State Nat 2 :=
  { w7 with lock := none, pcs := Function.update w7.pcs 1 (.done 7) }

/-- The run above is reachable. -/
theorem w8_reach :
    Relation.ReflTransGen (Step (7 : Nat) 0 10) (init 2 none) w8 := by
  have h1 : Step (7 : Nat) 0 10 w0 w1 := Step.acquire w0 0 rfl rfl
  have h2 : Step (7 : Nat) 0 10 w1 w2 := Step.checkMiss w1 0 (by simp [w1, w0, init]) rfl
  have h3 : Step (7 : Nat) 0 10 w2 w3 := Step.load w2 0 (by simp [w2, w1, w0, init])
  have h4 : Step (7 : Nat) 0 10 w3 w4 := Step.store w3 0 7 (by simp [w3, w2, w1, w0, init])
  have h5 : Step (7 : Nat) 0 10 w4 w5 := Step.finishStored w4 0 7 (by simp [w4, w3, w2, w1, w0, init])
  have h6 : Step (7 : Nat) 0 10 w5 w6 := Step.acquire w5 1 (by simp [w5, w4, w3, w2, w1, w0, init]) rfl
  have h7 : Step (7 : Nat) 0 10 w6 w7 :=
    Step.checkHit w6 1 ⟨7, 0 + 10⟩ (by simp [w6, w5, w4, w3, w2, w1, w0, init]) rfl rfl
  have h8 : Step (7 : Nat) 0 10 w7 w8 := Step.finishRetrieved w7 1 7 (by simp [w7, w6, w5, w4, w3, w2, w1, w0, init])
  exact .tail (.tail (.tail (.tail (.tail (.tail (.tail (.tail .refl h1) h2) h3) h4) h5) h6) h7) h8

end Conc

/-- C1 witness: on the concrete two-caller interleaving the loader ran
exactly once and both callers returned its single result `7`. -/
theorem conc_get_exactly_one_load_witness :
    Conc.w8.calls = 1 ∧ Conc.w8.pcs 0 = Conc.PC.done 7 ∧
      Conc.w8.pcs 1 = Conc.PC.done 7 := by
  have h := conc_get_exactly_one_load (7 : Nat) 0 10 none (Or.inl rfl)
    Conc.w8 Conc.w8_reach 0
    (by
      intro i
      fin_cases i
      · exact ⟨7, by simp [Conc.w8, Conc.w7, Conc.w6, Conc.w5, Conc.w4,
          Conc.w3, Conc.w2, Conc.w1, Conc.w0, Conc.init]⟩
      · exact ⟨7, by simp [Conc.w8, Conc.w7, Conc.w6, Conc.w5, Conc.w4,
          Conc.w3, Conc.w2, Conc.w1, Conc.w0, Conc.init]⟩)
  refine ⟨h.1, ?_, ?_⟩ <;>
    simp [Conc.w8, Conc.w7, Conc.w6, Conc.w5, Conc.w4,
      Conc.w3, Conc.w2, Conc.w1, Conc.w0, Conc.init]

/-- Helper: whatever branch `Get` takes, the lock registry afterwards is the
prior registry with the key's lock present. -/
theorem Get_lockMap_eq {K V : Type} [DecidableEq K]
    (l : loadingCache K V) (k : K) (now : Nat) :
    (l.Get k now).2.1.lockMap = Function.update l.lockMap k true := by
  rcases hk : l.dataMap k with _ | e
  · simp [loadingCache.Get, loadingCache.getKeyLockFromMap, hk]
  · by_cases hx : e.Expired now = true
    · simp [loadingCache.Get, loadingCache.getKeyLockFromMap, hk, hx]
    · simp [loadingCache.Get, loadingCache.getKeyLockFromMap, hk, hx]

namespace Reg

/-- Program counter of one `getKeyLockFromMap` caller for a fixed key in
the interleaving model of `src/cache.go`: `idle` before
`this.lockMapLock.Lock()`; `inGuard` after acquiring the registry guard and
before the map lookup; `holding l` having determined its result, the mutex
object with identity `l` (either found in the map or freshly created and
inserted); `done l` after returning `l` (the deferred guard unlock has
run). -/
inductive RPC where
  | idle
  | inGuard
  | holding (lockId : Nat)
  | done (lockId : Nat)

/-- A caller is between `lockMapLock.Lock()` and `lockMapLock.Unlock()`. -/
def RPC.busy : RPC → Prop
  | .idle => False
  | .done _ => False
  | _ => True

/-- Shared state of `n` concurrent `getKeyLockFromMap` callers on one key:
the registry guard `lockMapLock` (`guard`, holding its owner), the
registry entry for the key (`lockMap`, the identity of its mutex object if
present), an allocation counter `fresh` giving each created mutex a
distinct identity, and each caller's program counter. -/
structure State (n : Nat) where
  guard : Option (Fin n)
  lockMap : Option Nat
  fresh : Nat
  pcs : Fin n → RPC

/-- Initial state: guard free, no lock for the key yet, nothing allocated. -/
def init (n : Nat) : State n := ⟨none, none, 0, fun _ => .idle⟩

/-- One interleaving step of `n` concurrent `getKeyLockFromMap key`
callers.  Each constructor is one atomic action of the source: acquiring
the free registry guard, the map lookup (hit: return the existing lock;
miss: create a new lock, insert it, return it), and returning (which runs
the deferred guard unlock). -/
inductive Step {n : Nat} : State n → State n → Prop where
  | acqGuard (s : State n) (i : Fin n) :
      s.pcs i = .idle → s.guard = none →
      Step s { s with guard := some i, pcs := Function.update s.pcs i .inGuard }
  | checkHit (s : State n) (i : Fin n) (l : Nat) :
      s.pcs i = .inGuard → s.lockMap = some l →
      Step s { s with pcs := Function.update s.pcs i (.holding l) }
  | checkInsert (s : State n) (i : Fin n) :
      s.pcs i = .inGuard → s.lockMap = none →
      Step s { s with lockMap := some s.fresh, fresh := s.fresh + 1,
                      pcs := Function.update s.pcs i (.holding s.fresh) }
  | release (s : State n) (i : Fin n) (l : Nat) :
      s.pcs i = .holding l →
      Step s { s with guard := none, pcs := Function.update s.pcs i (.done l) }

/-- Inductive invariant: guard ownership, every determined result is the
registry's single entry, and at most one lock is ever allocated for the
key (identity `0`, allocated exactly when the entry exists). -/
structure Inv {n : Nat} (s : State n) : Prop where
  gowner : ∀ i, (s.pcs i).busy → s.guard = some i
  result_val : ∀ i l, s.pcs i = .holding l ∨ s.pcs i = .done l →
    s.lockMap = some l
  alloc : (s.lockMap = none ∧ s.fresh = 0) ∨ (s.lockMap = some 0 ∧ s.fresh = 1)

/-- The invariant holds initially. -/
theorem reg_inv_init (n : Nat) : Inv (init n) := by
  refine ⟨?_, ?_, Or.inl ⟨rfl, rfl⟩⟩
  · intro i hi
    simp [init, RPC.busy] at hi
  · intro i l hl
    rcases hl with h | h <;> simp [init] at h

/-- Every step preserves the invariant. -/
theorem reg_inv_step {n : Nat} {s t : State n} (hinv : Inv s)
    (hstep : Step s t) : Inv t := by
  cases hstep with
  | acqGuard i hpc hguard =>
      refine ⟨?_, ?_, hinv.alloc⟩
      · intro j hj
        dsimp only at hj ⊢
        rcases eq_or_ne j i with rfl | hne
        · rfl
        · rw [Function.update_noteq hne] at hj
          have h2 := hinv.gowner j hj
          rw [hguard] at h2
          exact Option.noConfusion h2
      · intro j l hl
        dsimp only at hl
        rcases eq_or_ne j i with rfl | hne
        · rw [Function.update_same] at hl
          rcases hl with h | h <;> cases h
        · rw [Function.update_noteq hne] at hl
          exact hinv.result_val j l hl
  | checkHit i l hpc hmap =>
      refine ⟨?_, ?_, hinv.alloc⟩
      · intro j hj
        dsimp only at hj ⊢
        rcases eq_or_ne j i with rfl | hne
        · exact hinv.gowner j (by rw [hpc]; trivial)
        · rw [Function.update_noteq hne] at hj
          exact hinv.gowner j hj
      · intro j l2 hl
        dsimp only at hl
        rcases eq_or_ne j i with rfl | hne
        · rw [Function.update_same] at hl
          rcases hl with h | h
          · injection h with h2
            rw [← h2]
            exact hmap
          · cases h
        · rw [Function.update_noteq hne] at hl
          exact hinv.result_val j l2 hl
  | checkInsert i hpc hmap =>
      have hfresh : s.fresh = 0 := by
        rcases hinv.alloc with ⟨_, h⟩ | ⟨h, _⟩
        · exact h
        · rw [hmap] at h
          cases h
      refine ⟨?_, ?_, ?_⟩
      · intro j hj
        dsimp only at hj ⊢
        rcases eq_or_ne j i with rfl | hne
        · exact hinv.gowner j (by rw [hpc]; trivial)
        · rw [Function.update_noteq hne] at hj
          exact hinv.gowner j hj
      · intro j l2 hl
        dsimp only at hl ⊢
        rcases eq_or_ne j i with rfl | hne
        · rw [Function.update_same] at hl
          rcases hl with h | h
          · injection h with h2
            rw [← h2]
          · cases h
        · rw [Function.update_noteq hne] at hl
          have h2 := hinv.result_val j l2 hl
          rw [hmap] at h2
          cases h2
      · refine Or.inr ?_
        dsimp only
        rw [hfresh]
        exact ⟨rfl, rfl⟩
  | release i l hpc =>
      refine ⟨?_, ?_, hinv.alloc⟩
      · intro j hj
        dsimp only at hj
        rcases eq_or_ne j i with rfl | hne
        · rw [Function.update_same] at hj
          simp [RPC.busy] at hj
        · rw [Function.update_noteq hne] at hj
          have h1 := hinv.gowner j hj
          have h2 := hinv.gowner i (by rw [hpc]; trivial)
          rw [h1] at h2
          injection h2 with h3
          exact absurd h3 hne
      · intro j l2 hl
        dsimp only at hl
        rcases eq_or_ne j i with rfl | hne
        · rw [Function.update_same] at hl
          rcases hl with h | h
          · cases h
          · injection h with h2
            rw [← h2]
            exact hinv.result_val j l (Or.inl hpc)
        · rw [Function.update_noteq hne] at hl
          exact hinv.result_val j l2 hl

/-- Every reachable state satisfies the invariant. -/
theorem reg_inv_reach {n : Nat} (s : State n)
    (hreach : Relation.ReflTransGen Step (init n) s) : Inv s := by
  induction hreach with
  | refl => exact reg_inv_init n
  | tail _ hstep ih => exact reg_inv_step ih hstep

end Reg

/-- C8: the registry holds at most one lock per key for the cache's
lifetime.  In any interleaving of concurrent `getKeyLockFromMap` callers
for a never-seen key: all returned lock identities coincide (racing callers
never obtain two different lock objects), every returned lock is the
registry's entry (an existing lock is returned, otherwise exactly one is
created and inserted — at most one allocation ever happens), no step
removes or replaces the registry entry; and in the sequential embedding
neither `Get` nor `Put` ever removes a key's lock from the registry. -/
theorem reg_single_lock_per_key {n : Nat} (s : Reg.State n)
    (hreach : Relation.ReflTransGen Reg.Step (Reg.init n) s) :
    (∀ i li j lj, s.pcs i = Reg.RPC.done li → s.pcs j = Reg.RPC.done lj →
      li = lj) ∧
    (∀ i l, s.pcs i = Reg.RPC.done l → s.lockMap = some l) ∧
    s.fresh ≤ 1 ∧
    (∀ l s2, s.lockMap = some l → Reg.Step s s2 → s2.lockMap = some l) ∧
    (∀ (K V : Type) [DecidableEq K] (l : loadingCache K V) (k k2 : K)
      (v : V) (now : Nat), l.lockMap k2 = true →
      (l.Get k now).2.1.lockMap k2 = true ∧
      (l.Put k v now).lockMap k2 = true) := by
  have hinv := Reg.reg_inv_reach s hreach
  refine ⟨?_, ?_, ?_, ?_, ?_⟩
  · intro i li j lj hi hj
    have h1 := hinv.result_val i li (Or.inr hi)
    have h2 := hinv.result_val j lj (Or.inr hj)
    rw [h1] at h2
    injection h2
  · intro i l hl
    exact hinv.result_val i l (Or.inr hl)
  · rcases hinv.alloc with ⟨_, h⟩ | ⟨_, h⟩ <;> omega
  · intro l s2 hmap hstep
    cases hstep with
    | acqGuard i hpc hguard => exact hmap
    | checkHit i l2 hpc hmap2 => exact hmap
    | checkInsert i hpc hmap2 =>
        rw [hmap] at hmap2
        cases hmap2
    | release i l2 hpc => exact hmap
  · intro K V instK l k k2 v now h
    constructor
    · rw [Get_lockMap_eq, Function.update_apply]
      split
      · rfl
      · exact h
    · show Function.update l.lockMap k true k2 = true
      rw [Function.update_apply]
      split
      · rfl
      · exact h

namespace Reg

/-- Concrete two-caller run on a never-seen key: caller 0 acquires the
guard, finds no lock, creates and inserts lock `0` and returns it; caller
1 then acquires the guard, finds lock `0` and returns it. -/
def r0 : State 2 := init 2

def r1 : State 2 :=
  { r0 with guard := some 0, pcs := Function.update r0.pcs 0 .inGuard }

def r2 : State 2 :=
  { r1 with lockMap := some r1.fresh, fresh := r1.fresh + 1,
            pcs := Function.update r1.pcs 0 (.holding r1.fresh) }

def r3 : State 2 :=
  { r2 with guard := none, pcs := Function.update r2.pcs 0 (.done 0) }

def r4 : State 2 :=
  { r3 with guard := some 1, pcs := Function.update r3.pcs 1 .inGuard }

def r5 : State 2 := { r4 with pcs := Function.update r4.pcs 1 (.holding 0) }

def r6 : State 2 :=
  { r5 with guard := none, pcs := Function.update r5.pcs 1 (.done 0) }

/-- The run above is reachable. -/
theorem r6_reach : Relation.ReflTransGen Step (init 2) r6 := by
  have h1 : Step r0 r1 := Step.acqGuard r0 0 rfl rfl
  have h2 : Step r1 r2 := Step.checkInsert r1 0 (by simp [r1, r0, init]) rfl
  have h3 : Step r2 r3 := Step.release r2 0 0 (by simp [r2, r1, r0, init])
  have h4 : Step r3 r4 := Step.acqGuard r3 1 (by simp [r3, r2, r1, r0, init]) rfl
  have h5 : Step r4 r5 := Step.checkHit r4 1 0 (by simp [r4, r3, r2, r1, r0, init]) rfl
  have h6 : Step r5 r6 := Step.release r5 1 0 (by simp [r5, r4, r3, r2, r1, r0, init])
  exact .tail (.tail (.tail (.tail (.tail (.tail .refl h1) h2) h3) h4) h5) h6

end Reg

/-- C8 witness: on the concrete two-caller run both callers returned lock
`0`, that lock is the registry's entry, and only one lock was allocated. -/
theorem reg_single_lock_per_key_witness :
    Reg.r6.lockMap = some 0 ∧ Reg.r6.fresh ≤ 1 := by
  have h := reg_single_lock_per_key Reg.r6 Reg.r6_reach
  refine ⟨h.2.1 0 0 ?_, h.2.2.1⟩
  simp [Reg.r6, Reg.r5, Reg.r4, Reg.r3, Reg.r2, Reg.r1, Reg.r0, Reg.init]

/-- C10 witness: after `Put 1 9` (TTL 5, time 0), a `Get` on the distinct
key `2` at time `3` leaves key `1` present and exactly unchanged. -/
theorem store_never_shrinks_witness :
    ((((NewLoadingCache (fun n : Nat => n) 5).Put 1 9 0).Get 2 3).2.1.dataMap 1).isSome ∧
    (((NewLoadingCache (fun n : Nat => n) 5).Put 1 9 0).Get 2 3).2.1.dataMap 1 =
      ((NewLoadingCache (fun n : Nat => n) 5).Put 1 9 0).dataMap 1 := by
  have h := store_never_shrinks
    ((NewLoadingCache (fun n : Nat => n) 5).Put 1 9 0) 2 1 0 3
  refine ⟨h.1 ?_, h.2.1 ?_⟩
  · simp [loadingCache.Put, NewLoadingCache, loadingCache.getKeyLockFromMap]
  · decide
